import Mathlib

/-!
Shallow embedding of the IT asset management app (src/app.py).

A pandas DataFrame is modelled as a `Table`: an ordered list of column
names together with rows of heterogeneous cells (`Value`).  Cell access
is by column name, as in pandas; a missing column or a short row reads
as the missing value (NaN).  An uploaded file is modelled by the result
of `load_excel_or_csv` on its bytes: each `UploadFile` carries its name
and either the decoded table (`some t`) or `none` when both the
spreadsheet decode and the CSV fallback raise.
-/

namespace AssetApp

/-- A cell of a DataFrame: text, a number, or NaN. -/
inductive Value where
  | text (s : String)
  | num (n : Int)
  | missing
  deriving DecidableEq, Repr

/-- A DataFrame: named columns and rows of cells aligned positionally
with the column list. -/
structure Table where
  cols : List String
  rows : List (List Value)
  deriving DecidableEq, Repr

/-- An uploaded file: its name (used in diagnostics) and the outcome of
`load_excel_or_csv` on its bytes (`none` when both decoders raise). -/
structure UploadFile where
  name : String
  decoded : Option Table
  deriving DecidableEq, Repr

/-- Index of the first column named `c`, as pandas resolves `df[c]`. -/
def colIdx (c : String) : List String → Option Nat
  | [] => none
  | d :: ds => if d = c then some 0 else (colIdx c ds).map (· + 1)

/-- The value of column `c` in a row: NaN when the column is absent. -/
def cellValue (cols : List String) (row : List Value) (c : String) : Value :=
  match colIdx c cols with
  | some i => row.getD i Value.missing
  | none => Value.missing

/-- Re-express a row over a new column list, reading absent columns as
NaN — the per-row effect of the outer column alignment in `pd.concat`. -/
def alignRow (oldCols newCols : List String) (row : List Value) : List Value :=
  newCols.map (fun c => cellValue oldCols row c)

/-- Append the column names of one more frame, keeping first occurrences. -/
def addCols (acc : List String) : List String → List String
  | [] => acc
  | c :: cs => if acc.contains c then addCols acc cs else addCols (acc ++ [c]) cs

/-- Union of the column names of the frames in order of first appearance. -/
def unionCols (ts : List Table) : List String :=
  ts.foldl (fun a t => addCols a t.cols) []

/-- `pd.concat(frames, ignore_index=True)`: align columns by name with
outer join and stack the rows in frame order. -/
def pdConcat (ts : List Table) : Table :=
  let cs := unionCols ts
  { cols := cs
    rows := (ts.map (fun t => t.rows.map (alignRow t.cols cs))).flatten }

/-- Loop body of `concat_uploads` (src/app.py lines 54-65): decode each
file in order, abort with the name of the failing file on the first
decode failure, return `none` for an empty batch, else concatenate.
The second component records the file names passed to `st.error`. -/
def concatUploadsGo : List UploadFile → List Table → Option Table × List String
  | [], frames => if frames.isEmpty then (none, []) else (some (pdConcat frames), [])
  | f :: rest, frames =>
    match f.decoded with
    | some t => concatUploadsGo rest (frames ++ [t])
    | none => (none, [f.name])

/-- `concat_uploads` from src/app.py. -/
def concat_uploads (files : List UploadFile) : Option Table × List String :=
  concatUploadsGo files []

/-- Lines 123-127 of src/app.py: run the merge; when the result is
`None` or empty, warn and stop (`true` in the second component), else
hand the table to the rest of the interaction. -/
def merge_step (files : List UploadFile) : Option Table × Bool :=
  match (concat_uploads files).1 with
  | none => (none, true)
  | some t => if t.rows.length = 0 then (none, true) else (some t, false)

/-- Character-list version of the Python `startswith` test. -/
def isPrefOf : List Char → List Char → Bool
  | [], _ => true
  | _ :: _, [] => false
  | a :: as, b :: bs => if a = b then isPrefOf as bs else false

/-- Character-list substring test, as the Python `in` on strings. -/
def containsSeq (needle : List Char) : List Char → Bool
  | [] => isPrefOf needle []
  | b :: bs => isPrefOf needle (b :: bs) || containsSeq needle bs

/-- `rule.startswith(pre)` from Python, on the character sequences. -/
def strStartsWith (s pre : String) : Bool := isPrefOf pre.data s.data

/-- Drop the first `n` characters of a string; this is
`rule.split(marker, 1)[1]` when the rule starts with the `n`-character
marker. -/
def strDrop (s : String) (n : Nat) : String := String.mk (s.data.drop n)

/-- Python `c.lower()` restricted to the alphabets the keyword scan
uses (ASCII case folding). -/
def lowerStr (s : String) : String := String.mk (s.data.map Char.toLower)

/-- Line 77 of src/app.py: the column-name scan
`"serial" in c.lower() or "시리얼" in c`. -/
def isSerialCol (c : String) : Bool :=
  containsSeq "serial".data (lowerStr c).data || containsSeq "시리얼".data c.data

/-- Python `str(value)`: pandas `astype(str)` renders NaN as `"nan"`. -/
def valueToStr : Value → String
  | Value.text s => s
  | Value.num n => toString n
  | Value.missing => "nan"

/-- Column assignment `df[col] = ...`: rewrite the cells of every
position named `col`, leaving all other positions as they read. -/
def transformRow (cols : List String) (col : String) (f : Value → Value)
    (row : List Value) : List Value :=
  (List.range cols.length).map (fun j =>
    if cols.getD j "" = col then f (row.getD j Value.missing)
    else row.getD j Value.missing)

/-- `apply_serial_rule` from src/app.py (lines 71-87). -/
def apply_serial_rule (t : Table) (rule : String) : Table :=
  match t.cols.filter isSerialCol with
  | [] => t
  | col :: _ =>
    if strStartsWith rule "prefix=" then
      { cols := t.cols
        rows := t.rows.map (transformRow t.cols col
          (fun v => Value.text (strDrop rule 7 ++ valueToStr v))) }
    else if strStartsWith rule "suffix=" then
      { cols := t.cols
        rows := t.rows.map (transformRow t.cols col
          (fun v => Value.text (valueToStr v ++ strDrop rule 7))) }
    else t

/-- The serial column that `apply_serial_rule` acts on, when one
exists: the first column name matching the keyword scan. -/
def selSerialCol (t : Table) : Option String :=
  (t.cols.filter isSerialCol).head?

/-- `(df[col] == lit).sum()`: the number of rows whose cell in `col`
is exactly the text `lit` (lines 146-147 of src/app.py). -/
def countStatus (t : Table) (col lit : String) : Nat :=
  t.rows.countP (fun r => cellValue t.cols r col = Value.text lit)

/-- `df.groupby(col, dropna=False).size()` (lines 177 and 188 of
src/app.py): one key per distinct cell value of `col` — NaN kept as its
own group — with the number of rows carrying that value.  pandas sorts
the keys; the spec treats key order as insignificant, so the keys are
listed here in `List.dedup` order. -/
def groupCounts (t : Table) (col : String) : List (Value × Nat) :=
  let vals := t.rows.map (fun r => cellValue t.cols r col)
  vals.dedup.map (fun k => (k, vals.count k))

/-- The document built by `build_repair_pdf`: the fixed title line and
one `"col: value"` line per filtered row. -/
structure PdfDoc where
  title : String
  lines : List String
  deriving DecidableEq, Repr

/-- `build_repair_pdf` from src/app.py (lines 93-108), with the outcome
of `get_font_path` passed in: when no font path is available the
function returns `None` before any rendering; otherwise it renders the
rows whose status cell equals the needs-repair literal. -/
def build_repair_pdf (fontPath : Option String) (t : Table)
    (statusCol : String) : Option PdfDoc :=
  match fontPath with
  | none => none
  | some _ =>
    some
      { title := "수리 대상자 목록"
        lines :=
          (t.rows.filter
              (fun r => cellValue t.cols r statusCol = Value.text "수리 필요")).map
            (fun r => String.intercalate ", "
              (t.cols.map (fun c => c ++ ": " ++ valueToStr (cellValue t.cols r c)))) }

/-- Lines 208-218 of src/app.py: build the PDF on demand; when no
document comes back, report the failure (`true` in the second
component) instead of offering a download. -/
def repair_pdf_action (fontPath : Option String) (t : Table)
    (statusCol : String) : Option PdfDoc × Bool :=
  match build_repair_pdf fontPath t statusCol with
  | some d => (some d, false)
  | none => (none, true)

/-- Concrete table: file A of the merge scenario in the spec. -/
def wTA : Table :=
  { cols := ["Name", "Status"]
    rows := [[Value.text "A1", Value.text "정상"], [Value.text "A2", Value.text "수리 필요"]] }

/-- Concrete table: file B of the merge scenario in the spec. -/
def wTB : Table :=
  { cols := ["Name", "Status"]
    rows := [[Value.text "B1", Value.text "폐기 예정"]] }

/-- Concrete table whose column set differs from `wTA`. -/
def wTC : Table :=
  { cols := ["Status", "Dept"]
    rows := [[Value.text "폐기 예정", Value.text "HR"]] }

/-- Concrete table with zero rows. -/
def wTE : Table := { cols := ["X"], rows := [] }

/-- Concrete table with a serial column holding the text 001. -/
def wTS : Table := { cols := ["Serial"], rows := [[Value.text "001"]] }

/-- Concrete table with no serial-like column. -/
def wTN : Table := { cols := ["Name"], rows := [[Value.text "n1"]] }

/-- Concrete table with two serial-like columns. -/
def wT2S : Table :=
  { cols := ["Serial", "SerialOld"]
    rows := [[Value.text "001", Value.text "999"]] }

/-- Concrete table with a serial column and an unrelated column. -/
def wTSN : Table :=
  { cols := ["Serial", "Name"]
    rows := [[Value.text "001", Value.text "Kim"]] }

end AssetApp

namespace AssetApp

theorem isPrefOf_self_append (a b : List Char) : isPrefOf a (a ++ b) = true := by
  induction a with
  | nil => rfl
  | cons x xs ih => simp [isPrefOf, ih]

theorem strStartsWith_self_append (pre rest : String) :
    strStartsWith (pre ++ rest) pre = true := by
  unfold strStartsWith
  rw [String.data_append]
  exact isPrefOf_self_append _ _

theorem strDrop_marker (pre rest : String) : strDrop (pre ++ rest) pre.length = rest := by
  unfold strDrop
  rw [String.data_append, List.drop_left' (show pre.data.length = pre.length from rfl)]

theorem strDrop_seven_pre (p : String) : strDrop ("prefix=" ++ p) 7 = p :=
  strDrop_marker "prefix=" p

theorem strDrop_seven_suf (s : String) : strDrop ("suffix=" ++ s) 7 = s :=
  strDrop_marker "suffix=" s

theorem suffix_rule_not_pref (s : String) :
    strStartsWith ("suffix=" ++ s) "prefix=" = false := by
  simp [strStartsWith, isPrefOf]

theorem colIdx_some_spec {c : String} : ∀ {l : List String} {i : Nat},
    colIdx c l = some i → i < l.length ∧ l.getD i "" = c := by
  intro l
  induction l with
  | nil => intro i h; simp [colIdx] at h
  | cons d ds ih =>
    intro i h
    by_cases hd : d = c
    · simp [colIdx, hd] at h
      subst h
      simp [hd]
    · simp only [colIdx, if_neg hd, Option.map_eq_some'] at h
      obtain ⟨j, hj, hji⟩ := h
      obtain ⟨hlt, hget⟩ := ih hj
      subst hji
      exact ⟨by simpa using Nat.succ_lt_succ hlt, by simpa using hget⟩

theorem colIdx_eq_none {c : String} : ∀ {l : List String}, c ∉ l → colIdx c l = none := by
  intro l
  induction l with
  | nil => intro _; rfl
  | cons d ds ih =>
    intro h
    simp only [List.mem_cons, not_or] at h
    simp [colIdx, Ne.symm h.1, ih h.2]

theorem colIdx_isSome_of_mem {c : String} : ∀ {l : List String},
    c ∈ l → ∃ i, colIdx c l = some i := by
  intro l
  induction l with
  | nil => intro h; simp at h
  | cons d ds ih =>
    intro h
    by_cases hd : d = c
    · exact ⟨0, by simp [colIdx, hd]⟩
    · obtain ⟨j, hj⟩ := ih
        (by rcases List.mem_cons.mp h with h1 | h1; exact absurd h1.symm hd; exact h1)
      exact ⟨j + 1, by simp [colIdx, hd, hj]⟩

theorem cellValue_of_not_mem {c : String} {cols : List String} (h : c ∉ cols)
    (row : List Value) : cellValue cols row c = Value.missing := by
  unfold cellValue
  rw [colIdx_eq_none h]

theorem getD_map_of_lt {α β : Type} (f : α → β) (l : List α) (i : Nat) (d : β) (d' : α)
    (h : i < l.length) : (l.map f).getD i d = f (l.getD i d') := by
  rw [List.getD_eq_getElem?_getD, List.getElem?_eq_getElem (by simpa using h),
    List.getD_eq_getElem?_getD, List.getElem?_eq_getElem h]
  simp

theorem getD_map_range {β : Type} (g : Nat → β) (d : β) {n i : Nat} (h : i < n) :
    ((List.range n).map g).getD i d = g i := by
  rw [List.getD_eq_getElem?_getD, List.getElem?_eq_getElem (by simpa using h)]
  simp

theorem getD_out {α : Type} (l : List α) (i : Nat) (d : α) (h : ¬ i < l.length) :
    l.getD i d = d := by
  rw [List.getD_eq_getElem?_getD, List.getElem?_eq_none (Nat.le_of_not_lt h)]
  rfl

theorem getD_map_out {α β : Type} (f : α → β) (l : List α) (i : Nat) (d : β)
    (h : ¬ i < l.length) : (l.map f).getD i d = d := by
  rw [List.getD_eq_getElem?_getD, List.getElem?_eq_none (by simpa using Nat.le_of_not_lt h)]
  rfl

theorem cellValue_map (f : String → Value) {newCols : List String} {c : String}
    (h : c ∈ newCols) : cellValue newCols (newCols.map f) c = f c := by
  obtain ⟨i, hi⟩ := colIdx_isSome_of_mem h
  obtain ⟨hlt, hget⟩ := colIdx_some_spec hi
  simp only [cellValue, hi]
  rw [getD_map_of_lt _ _ _ _ "" hlt, hget]

theorem cellValue_alignRow {oldCols newCols : List String} (row : List Value) {c : String}
    (h : c ∈ newCols) :
    cellValue newCols (alignRow oldCols newCols row) c = cellValue oldCols row c :=
  cellValue_map _ h

theorem cellValue_alignRow_missing {oldCols : List String} (newCols : List String)
    (row : List Value) {c : String} (h : c ∉ oldCols) :
    cellValue newCols (alignRow oldCols newCols row) c = Value.missing := by
  by_cases hc : c ∈ newCols
  · rw [cellValue_alignRow row hc, cellValue_of_not_mem h]
  · exact cellValue_of_not_mem hc _

theorem cellValue_transformRow_self (cols : List String) {col : String} (f : Value → Value)
    (row : List Value) (h : col ∈ cols) :
    cellValue cols (transformRow cols col f row) col = f (cellValue cols row col) := by
  obtain ⟨i, hi⟩ := colIdx_isSome_of_mem h
  obtain ⟨hlt, hget⟩ := colIdx_some_spec hi
  simp only [cellValue, hi, transformRow]
  rw [getD_map_range _ _ hlt, hget]
  simp

theorem cellValue_transformRow_ne (cols : List String) {col c : String} (f : Value → Value)
    (row : List Value) (h : c ≠ col) :
    cellValue cols (transformRow cols col f row) c = cellValue cols row c := by
  cases hidx : colIdx c cols with
  | none => simp only [cellValue, hidx]
  | some i =>
    obtain ⟨hlt, hget⟩ := colIdx_some_spec hidx
    simp only [cellValue, hidx, transformRow]
    rw [getD_map_range _ _ hlt, hget]
    simp [h]

theorem cellValue_mapRows_ne (t : Table) (col c : String) (f : Value → Value) (i : Nat)
    (hc : c ≠ col) :
    cellValue t.cols ((t.rows.map (transformRow t.cols col f)).getD i []) c
      = cellValue t.cols (t.rows.getD i []) c := by
  by_cases hi : i < t.rows.length
  · rw [getD_map_of_lt _ _ _ _ [] hi, cellValue_transformRow_ne _ _ _ hc]
  · rw [getD_map_out _ _ _ _ hi, getD_out _ _ _ hi]

theorem mem_addCols {c : String} : ∀ (l acc : List String),
    c ∈ addCols acc l ↔ c ∈ acc ∨ c ∈ l := by
  intro l
  induction l with
  | nil => intro acc; simp [addCols]
  | cons d ds ih =>
    intro acc
    by_cases hd : acc.contains d
    · rw [addCols, if_pos hd, ih]
      have hdm : d ∈ acc := by simpa using hd
      constructor
      · rintro (h | h)
        · exact Or.inl h
        · exact Or.inr (List.mem_cons_of_mem _ h)
      · rintro (h | h)
        · exact Or.inl h
        · rcases List.mem_cons.mp h with h1 | h1
          · exact Or.inl (h1 ▸ hdm)
          · exact Or.inr h1
    · rw [addCols, if_neg hd, ih]
      simp [or_assoc, List.mem_cons]

theorem mem_foldl_addCols {c : String} : ∀ (ts : List Table) (acc : List String),
    c ∈ ts.foldl (fun a t => addCols a t.cols) acc ↔ c ∈ acc ∨ ∃ t ∈ ts, c ∈ t.cols := by
  intro ts
  induction ts with
  | nil => intro acc; simp
  | cons t ts ih =>
    intro acc
    rw [List.foldl_cons, ih, mem_addCols]
    simp [or_assoc]

theorem mem_unionCols {c : String} (ts : List Table) :
    c ∈ unionCols ts ↔ ∃ t ∈ ts, c ∈ t.cols := by
  unfold unionCols
  rw [mem_foldl_addCols]
  simp

theorem concatUploadsGo_success : ∀ (files : List UploadFile) (ts frames : List Table),
    files.map UploadFile.decoded = ts.map some →
    concatUploadsGo files frames =
      if (frames ++ ts).isEmpty then (none, []) else (some (pdConcat (frames ++ ts)), []) := by
  intro files
  induction files with
  | nil =>
    intro ts frames h
    have hts : ts = [] := by
      cases ts with
      | nil => rfl
      | cons a b => simp at h
    subst hts
    simp [concatUploadsGo]
  | cons f fs ih =>
    intro ts frames h
    cases ts with
    | nil => simp at h
    | cons t ts' =>
      simp only [List.map_cons, List.cons.injEq] at h
      obtain ⟨h1, h2⟩ := h
      simp only [concatUploadsGo, h1]
      rw [ih ts' (frames ++ [t]) h2]
      simp [List.append_assoc]

theorem concatUploadsGo_fail : ∀ (pre : List UploadFile) (f : UploadFile)
    (post : List UploadFile) (frames : List Table),
    (∀ g ∈ pre, (UploadFile.decoded g).isSome) → f.decoded = none →
    concatUploadsGo (pre ++ f :: post) frames = (none, [f.name]) := by
  intro pre
  induction pre with
  | nil =>
    intro f post frames _ hf
    simp [concatUploadsGo, hf]
  | cons g gs ih =>
    intro f post frames hall hf
    obtain ⟨t, ht⟩ := Option.isSome_iff_exists.mp (hall g (by simp))
    simp only [List.cons_append, concatUploadsGo, ht]
    exact ih f post _ (fun x hx => hall x (by simp [hx])) hf

theorem pdConcat_length (ts : List Table) :
    (pdConcat ts).rows.length = (ts.map (fun t => t.rows.length)).sum := by
  simp only [pdConcat, List.length_flatten, List.map_map]
  congr 1
  exact List.map_congr_left (fun t _ => by simp [Function.comp_def])

theorem countP_two_disjoint {α : Type} (p q : α → Bool) (l : List α)
    (hdisj : ∀ a, ¬(p a = true ∧ q a = true)) :
    l.countP p + l.countP q ≤ l.length ∧
    (l.countP p + l.countP q = l.length ↔ ∀ a ∈ l, p a = true ∨ q a = true) := by
  induction l with
  | nil => simp
  | cons a l ih =>
    obtain ⟨ih1, ih2⟩ := ih
    rw [List.countP_cons, List.countP_cons, List.length_cons]
    by_cases hp : p a = true
    · have hq : ¬ q a = true := fun hq => hdisj a ⟨hp, hq⟩
      rw [if_pos hp, if_neg hq]
      refine ⟨by omega, ?_⟩
      rw [show l.countP p + 1 + (l.countP q + 0) = l.countP p + l.countP q + 1 by omega]
      rw [Nat.add_right_cancel_iff, ih2, List.forall_mem_cons]
      simp [hp]
    · rw [if_neg hp]
      by_cases hq : q a = true
      · rw [if_pos hq]
        refine ⟨by omega, ?_⟩
        rw [show l.countP p + 0 + (l.countP q + 1) = l.countP p + l.countP q + 1 by omega]
        rw [Nat.add_right_cancel_iff, ih2, List.forall_mem_cons]
        simp [hq]
      · rw [if_neg hq]
        refine ⟨by omega, ?_⟩
        constructor
        · intro h; omega
        · intro h
          rcases h a (List.mem_cons_self a l) with h1 | h1
          · exact absurd h1 hp
          · exact absurd h1 hq

/-- C1: for a non-empty batch in which every file decodes,
`concat_uploads` returns the concatenated table: its row count is the
sum of the row counts of the individually decoded tables, and its rows
are exactly the decoded rows in file order — each decoded table
contributes its rows in their original order, and each contributed row
reads back, on the columns of its own file, the cells of the original
row. -/
theorem concat_uploads_merges_in_order (files : List UploadFile) (ts : List Table)
    (hne : files ≠ []) (hdec : files.map UploadFile.decoded = ts.map some) :
    (concat_uploads files).1 = some (pdConcat ts) ∧
    (pdConcat ts).rows.length = (ts.map (fun t => t.rows.length)).sum ∧
    (pdConcat ts).rows
      = (ts.map (fun t => t.rows.map (alignRow t.cols (pdConcat ts).cols))).flatten ∧
    (∀ t ∈ ts, ∀ r ∈ t.rows, ∀ c ∈ t.cols,
      cellValue (pdConcat ts).cols (alignRow t.cols (pdConcat ts).cols r) c
        = cellValue t.cols r c) := by
  have hts : ts ≠ [] := by
    intro h
    subst h
    cases files with
    | nil => exact hne rfl
    | cons a b => simp at hdec
  refine ⟨?_, pdConcat_length ts, rfl, ?_⟩
  · unfold concat_uploads
    rw [concatUploadsGo_success files ts [] hdec]
    simp [hts]
  · intro t ht r _ c hc
    exact cellValue_alignRow r ((mem_unionCols ts).mpr ⟨t, ht, hc⟩)

/-- C1 witness: the two decodable files of the merge scenario in the
spec produce a three-row table. -/
theorem concat_uploads_merges_in_order_witness :
    ([⟨"a.xlsx", some wTA⟩, ⟨"b.csv", some wTB⟩] : List UploadFile) ≠ [] ∧
    (concat_uploads [⟨"a.xlsx", some wTA⟩, ⟨"b.csv", some wTB⟩]).1
      = some (pdConcat [wTA, wTB]) ∧
    (pdConcat [wTA, wTB]).rows.length = 3 := by
  have h := concat_uploads_merges_in_order [⟨"a.xlsx", some wTA⟩, ⟨"b.csv", some wTB⟩]
    [wTA, wTB] (by simp) rfl
  refine ⟨by simp, h.1, ?_⟩
  rw [h.2.1]
  rfl

/-- C2: as soon as one file fails to decode, `concat_uploads` returns
no table at all — however many files before or after it would have
decoded — and the reported error names the offending file. -/
theorem concat_uploads_aborts_on_failure (pre post : List UploadFile) (f : UploadFile)
    (hpre : ∀ g ∈ pre, (UploadFile.decoded g).isSome) (hf : f.decoded = none) :
    concat_uploads (pre ++ f :: post) = (none, [f.name]) :=
  concatUploadsGo_fail pre f post [] hpre hf

/-- C2 witness: a failing file between two decodable files yields no
table and the failing file name. -/
theorem concat_uploads_aborts_on_failure_witness :
    concat_uploads [⟨"a.xlsx", some wTA⟩, ⟨"bad.csv", none⟩, ⟨"b.csv", some wTB⟩]
      = (none, ["bad.csv"]) := by
  have h := concat_uploads_aborts_on_failure [⟨"a.xlsx", some wTA⟩] [⟨"b.csv", some wTB⟩]
    ⟨"bad.csv", none⟩ (by simp) rfl
  simpa using h

/-- C3: when a serial column is detected, a rule of the form
`prefix=p` rewrites every cell of that column to `p` followed by the
textual form of the old value, and `suffix=s` rewrites it to the
textual form of the old value followed by `s`. -/
theorem apply_serial_rule_rewrites (t : Table) (p s col : String) (rest : List String)
    (hsel : t.cols.filter isSerialCol = col :: rest) :
    ∀ i, i < t.rows.length →
      cellValue t.cols ((apply_serial_rule t ("prefix=" ++ p)).rows.getD i []) col
        = Value.text (p ++ valueToStr (cellValue t.cols (t.rows.getD i []) col)) ∧
      cellValue t.cols ((apply_serial_rule t ("suffix=" ++ s)).rows.getD i []) col
        = Value.text (valueToStr (cellValue t.cols (t.rows.getD i []) col) ++ s) := by
  have hcol : col ∈ t.cols := by
    have h0 : col ∈ t.cols.filter isSerialCol := by
      rw [hsel]; exact List.mem_cons_self _ _
    exact (List.mem_filter.mp h0).1
  intro i hi
  constructor
  · simp only [apply_serial_rule, hsel]
    rw [if_pos (strStartsWith_self_append "prefix=" p)]
    rw [getD_map_of_lt _ _ _ _ [] hi]
    rw [cellValue_transformRow_self t.cols _ _ hcol]
    rw [strDrop_seven_pre]
  · simp only [apply_serial_rule, hsel]
    rw [if_neg (by rw [suffix_rule_not_pref]; exact Bool.false_ne_true)]
    rw [if_pos (strStartsWith_self_append "suffix=" s)]
    rw [getD_map_of_lt _ _ _ _ [] hi]
    rw [cellValue_transformRow_self t.cols _ _ hcol]
    rw [strDrop_seven_suf]

/-- C3 witness: the scenario of the spec — `prefix=HQ-` over a Serial
column holding 001 yields HQ-001, and `suffix=-2025` yields 001-2025. -/
theorem apply_serial_rule_rewrites_witness :
    cellValue wTS.cols ((apply_serial_rule wTS ("prefix=" ++ "HQ-")).rows.getD 0 []) "Serial"
      = Value.text "HQ-001" ∧
    cellValue wTS.cols ((apply_serial_rule wTS ("suffix=" ++ "-2025")).rows.getD 0 []) "Serial"
      = Value.text "001-2025" := by
  have h := apply_serial_rule_rewrites wTS "HQ-" "-2025" "Serial" [] (by rfl) 0 (by simp [wTS])
  exact ⟨by rw [h.1]; rfl, by rw [h.2]; rfl⟩

/-- C4: the needs-repair count plus the disposal count never exceeds
the row count, with equality exactly when every row carries one of the
two status literals in the chosen column. -/
theorem status_counts_bound (t : Table) (col : String) :
    countStatus t col "수리 필요" + countStatus t col "폐기 예정" ≤ t.rows.length ∧
    (countStatus t col "수리 필요" + countStatus t col "폐기 예정" = t.rows.length ↔
      ∀ r ∈ t.rows, cellValue t.cols r col = Value.text "수리 필요" ∨
        cellValue t.cols r col = Value.text "폐기 예정") := by
  have h := countP_two_disjoint
    (fun r => cellValue t.cols r col = Value.text "수리 필요")
    (fun r => cellValue t.cols r col = Value.text "폐기 예정")
    t.rows ?_
  · unfold countStatus
    refine ⟨h.1, ?_⟩
    rw [h.2]
    simp
  · intro r hboth
    obtain ⟨h1, h2⟩ := hboth
    rw [decide_eq_true_eq] at h1 h2
    rw [h1] at h2
    simp at h2

/-- C5: the group-by-count aggregation partitions the rows — the group
counts sum to the row count, and the keys are exactly the distinct cell
values of the grouping column (NaN included), each listed once. -/
theorem groupCounts_partition (t : Table) (col : String) :
    ((groupCounts t col).map Prod.snd).sum = t.rows.length ∧
    ((groupCounts t col).map Prod.fst).Nodup ∧
    (∀ v : Value, v ∈ (groupCounts t col).map Prod.fst ↔
      ∃ r ∈ t.rows, cellValue t.cols r col = v) := by
  refine ⟨?_, ?_, ?_⟩
  · simp only [groupCounts, List.map_map]
    rw [show (Prod.snd ∘ fun k => (k, (t.rows.map (fun r => cellValue t.cols r col)).count k))
        = fun k => (t.rows.map (fun r => cellValue t.cols r col)).count k from rfl]
    rw [List.sum_map_count_dedup_eq_length, List.length_map]
  · simp only [groupCounts, List.map_map]
    rw [show (Prod.fst ∘ fun k => (k, (t.rows.map (fun r => cellValue t.cols r col)).count k))
        = fun k => k from rfl]
    simpa using List.nodup_dedup _
  · intro v
    simp only [groupCounts, List.map_map]
    rw [show (Prod.fst ∘ fun k => (k, (t.rows.map (fun r => cellValue t.cols r col)).count k))
        = fun k => k from rfl]
    simp [List.mem_dedup, List.mem_map]

/-- C6: with no font resource available, `build_repair_pdf` produces no
document, and the export action reports the failure instead of offering
a download. -/
theorem build_repair_pdf_requires_font (t : Table) (statusCol : String) :
    build_repair_pdf none t statusCol = none ∧
    repair_pdf_action none t statusCol = (none, true) := ⟨rfl, rfl⟩

/-- C7: an empty upload list, or a batch whose decoded tables all have
zero rows, makes the merge step surface the empty-result warning and
halt with no table. -/
theorem merge_step_empty_result (files : List UploadFile) (ts : List Table)
    (h : files = [] ∨
      (files.map UploadFile.decoded = ts.map some ∧ ∀ t ∈ ts, t.rows.length = 0)) :
    merge_step files = (none, true) := by
  rcases h with h | ⟨hdec, hzero⟩
  · subst h
    rfl
  · have hlen : (pdConcat ts).rows.length = 0 := by
      rw [pdConcat_length]
      refine List.sum_eq_zero ?_
      intro x hx
      obtain ⟨t, ht, hxt⟩ := List.mem_map.mp hx
      rw [← hxt]
      exact hzero t ht
    unfold merge_step concat_uploads
    rw [concatUploadsGo_success files ts [] hdec]
    by_cases hemp : (([] : List Table) ++ ts).isEmpty
    · rw [if_pos hemp]
    · rw [if_neg hemp]
      simp only [List.nil_append] at hlen ⊢
      simp [hlen]

/-- C7 witness: the empty batch, and a batch of one decodable zero-row
file, both warn and halt. -/
theorem merge_step_empty_result_witness :
    merge_step [] = (none, true) ∧ merge_step [⟨"empty.csv", some wTE⟩] = (none, true) :=
  ⟨merge_step_empty_result [] [] (Or.inl rfl),
   merge_step_empty_result [⟨"empty.csv", some wTE⟩] [wTE] (Or.inr ⟨rfl, by simp [wTE]⟩)⟩

/-- C8: a merged table has as columns the union by name of the decoded
column sets, its rows are the aligned rows of the inputs, and a row
contributed by a file lacking some column reads NaN in that column. -/
theorem concat_uploads_aligns_columns (files : List UploadFile) (ts : List Table) (T : Table)
    (hdec : files.map UploadFile.decoded = ts.map some)
    (hT : (concat_uploads files).1 = some T) :
    (∀ c, c ∈ T.cols ↔ ∃ t ∈ ts, c ∈ t.cols) ∧
    T.rows = (ts.map (fun t => t.rows.map (alignRow t.cols T.cols))).flatten ∧
    (∀ t ∈ ts, ∀ r ∈ t.rows, ∀ c, c ∉ t.cols →
      cellValue T.cols (alignRow t.cols T.cols r) c = Value.missing) := by
  have hTeq : T = pdConcat ts := by
    unfold concat_uploads at hT
    rw [concatUploadsGo_success files ts [] hdec] at hT
    by_cases hemp : (([] : List Table) ++ ts).isEmpty
    · rw [if_pos hemp] at hT
      simp at hT
    · rw [if_neg hemp] at hT
      simp only [List.nil_append, Option.some.injEq] at hT
      exact hT.symm
  subst hTeq
  refine ⟨fun c => mem_unionCols ts, rfl, ?_⟩
  intro t _ r _ c hc
  exact cellValue_alignRow_missing _ r hc

/-- C8 witness: merging two files with different column sets, the Dept
column joins the union and the rows of the file without it read NaN
there. -/
theorem concat_uploads_aligns_columns_witness :
    ("Dept" ∈ (pdConcat [wTA, wTC]).cols) ∧
    cellValue (pdConcat [wTA, wTC]).cols
        (alignRow wTA.cols (pdConcat [wTA, wTC]).cols [Value.text "A1", Value.text "정상"])
        "Dept" = Value.missing := by
  have h := concat_uploads_aligns_columns [⟨"a.xlsx", some wTA⟩, ⟨"c.csv", some wTC⟩]
    [wTA, wTC] (pdConcat [wTA, wTC]) rfl rfl
  refine ⟨?_, ?_⟩
  · exact (h.1 "Dept").mpr ⟨wTC, by simp, by simp [wTC]⟩
  · exact h.2.2 wTA (by simp) [Value.text "A1", Value.text "정상"] (by simp [wTA]) "Dept"
      (by decide)

/-- C9: with no serial-like column the table passes through unchanged;
a rule that starts with neither marker is the identity transform; and
when several column names match, only the first match is rewritten —
every other column name reads back unchanged. -/
theorem apply_serial_rule_identity_cases (t : Table) (rule : String) :
    (t.cols.filter isSerialCol = [] → apply_serial_rule t rule = t) ∧
    (strStartsWith rule "prefix=" = false → strStartsWith rule "suffix=" = false →
      apply_serial_rule t rule = t) ∧
    (∀ col rest, t.cols.filter isSerialCol = col :: rest →
      ∀ c, c ≠ col → ∀ i,
        cellValue t.cols ((apply_serial_rule t rule).rows.getD i []) c
          = cellValue t.cols (t.rows.getD i []) c) := by
  refine ⟨?_, ?_, ?_⟩
  · intro h
    simp only [apply_serial_rule, h]
  · intro h1 h2
    cases hsel : t.cols.filter isSerialCol with
    | nil => simp only [apply_serial_rule, hsel]
    | cons col rest =>
      simp only [apply_serial_rule, hsel]
      rw [if_neg (by rw [h1]; exact Bool.false_ne_true),
        if_neg (by rw [h2]; exact Bool.false_ne_true)]
  · intro col rest hsel c hc i
    simp only [apply_serial_rule, hsel]
    by_cases h1 : strStartsWith rule "prefix=" = true
    · rw [if_pos h1]
      exact cellValue_mapRows_ne t col c _ i hc
    · rw [if_neg h1]
      by_cases h2 : strStartsWith rule "suffix=" = true
      · rw [if_pos h2]
        exact cellValue_mapRows_ne t col c _ i hc
      · rw [if_neg h2]

/-- C9 witness: a table with no serial-like column is unchanged, an
unrecognized rule is the identity, and with two matching columns the
second one keeps its value. -/
theorem apply_serial_rule_identity_cases_witness :
    apply_serial_rule wTN "prefix=HQ-" = wTN ∧
    apply_serial_rule wT2S "bogus" = wT2S ∧
    cellValue wT2S.cols ((apply_serial_rule wT2S "prefix=HQ-").rows.getD 0 []) "SerialOld"
      = Value.text "999" := by
  refine ⟨(apply_serial_rule_identity_cases wTN "prefix=HQ-").1 (by rfl),
    (apply_serial_rule_identity_cases wT2S "bogus").2.1 (by rfl) (by rfl), ?_⟩
  have h := (apply_serial_rule_identity_cases wT2S "prefix=HQ-").2.2 "Serial" ["SerialOld"]
    (by rfl) "SerialOld" (by decide) 0
  rw [h]
  rfl

/-- C10: `apply_serial_rule` keeps the column list, the row count and
the row order, and every column other than the selected serial column
reads back unchanged in every row. -/
theorem apply_serial_rule_frame (t : Table) (rule : String) :
    (apply_serial_rule t rule).cols = t.cols ∧
    (apply_serial_rule t rule).rows.length = t.rows.length ∧
    (∀ i : Nat, ∀ c : String, some c ≠ selSerialCol t →
      cellValue t.cols ((apply_serial_rule t rule).rows.getD i []) c
        = cellValue t.cols (t.rows.getD i []) c) := by
  cases hsel : t.cols.filter isSerialCol with
  | nil => simp [apply_serial_rule, hsel]
  | cons col rest =>
    have hhead : selSerialCol t = some col := by
      unfold selSerialCol
      rw [hsel]
      rfl
    have hframe : ∀ f : Value → Value,
        (∀ i : Nat, ∀ c : String, some c ≠ selSerialCol t →
          cellValue t.cols ((t.rows.map (transformRow t.cols col f)).getD i []) c
            = cellValue t.cols (t.rows.getD i []) c) := by
      intro f i c hc
      rw [hhead] at hc
      exact cellValue_mapRows_ne t col c f i (fun h => hc (by rw [h]))
    simp only [apply_serial_rule, hsel]
    by_cases h1 : strStartsWith rule "prefix=" = true
    · rw [if_pos h1]
      exact ⟨rfl, List.length_map _ _, hframe _⟩
    · rw [if_neg h1]
      by_cases h2 : strStartsWith rule "suffix=" = true
      · rw [if_pos h2]
        exact ⟨rfl, List.length_map _ _, hframe _⟩
      · rw [if_neg h2]
        exact ⟨rfl, rfl, fun i c _ => rfl⟩

/-- C10 witness: applying a rule to a table with a serial column keeps
the columns and row count and leaves the Name cell unchanged. -/
theorem apply_serial_rule_frame_witness :
    (apply_serial_rule wTSN "prefix=HQ-").cols = wTSN.cols ∧
    (apply_serial_rule wTSN "prefix=HQ-").rows.length = wTSN.rows.length ∧
    cellValue wTSN.cols ((apply_serial_rule wTSN "prefix=HQ-").rows.getD 0 []) "Name"
      = Value.text "Kim" := by
  have h := apply_serial_rule_frame wTSN "prefix=HQ-"
  refine ⟨h.1, h.2.1, ?_⟩
  rw [h.2.2 0 "Name" (by decide)]
  rfl

end AssetApp
